import Mathlib

/-!
Verification development for the Promo-Scraper retrieval-and-sync pipeline.

Texts are modelled as `List Char` (one Python `str` character per entry).
Scores and distances are modelled as exact rationals `ℚ`; the Python source
computes them in floating point, but every constant involved (1.0, 0.12,
0.05, 0.08) is treated by the specification as an exact quantity.
The embedding provider is modelled as an arbitrary pure function, following
the specification's Embedding Provider contract (a deterministic map from
text to a vector); none of the verified properties inspects vector values.
-/

/-- The whitespace characters stripped by Python `str.strip()`. -/
def isPySpace (c : Char) : Bool :=
  c = ' ' || c = '\t' || c = '\n' || c = '\r' || c = '\x0b' || c = '\x0c'

/-- Python `s.strip()`: remove leading and trailing whitespace. -/
def pyStrip (s : List Char) : List Char :=
  ((s.dropWhile isPySpace).reverse.dropWhile isPySpace).reverse

/-- Python `s[a:b]` for `0 ≤ a ≤ b` (slice of a string). -/
def pySlice (s : List Char) (a b : Nat) : List Char :=
  (s.drop a).take (b - a)

/-- Python `s.lower()` (ASCII case folding, the alphabet used by the repo). -/
def lowerChars (s : List Char) : List Char :=
  s.map Char.toLower

/-- Shorthand turning a list of string literals into the `List Char` model. -/
def strs (l : List String) : List (List Char) :=
  l.map String.data

/-!
## Chunker of `3.bca_scraper_senteces.py` (`chunk_text`)

```python
def chunk_text(text, max_chars=1200, overlap=150):
    text = (text or "").strip()
    if not text: return []
    chunks = []; start = 0
    while start < len(text):
        end = min(start + max_chars, len(text))
        chunks.append(text[start:end])
        if end == len(text): break
        start = max(0, end - overlap)
    return chunks
```

The `while` loop need not terminate (there is no progress guard), so the
loop is embedded with explicit fuel; `none` means the fuel ran out.
`max 0 (end - overlap)` is truncated `Nat` subtraction `end - overlap`.
-/

/-- The loop of `chunk_text`; fuel-indexed, `none` = fuel exhausted. -/
def chunkGo (maxChars overlap : Nat) (t : List Char) :
    Nat → Nat → List (List Char) → Option (List (List Char))
  | 0, _, _ => none
  | fuel + 1, start, acc =>
    if start < t.length then
      let e := min (start + maxChars) t.length
      let acc' := acc ++ [pySlice t start e]
      if e = t.length then some acc'
      else chunkGo maxChars overlap t fuel (e - overlap) acc'
    else some acc

/-- `chunk_text` from `3.bca_scraper_senteces.py`, with explicit fuel. -/
def chunkTextF (fuel maxChars overlap : Nat) (text : List Char) :
    Option (List (List Char)) :=
  let t := pyStrip text
  if t = [] then some [] else chunkGo maxChars overlap t fuel 0 []

/-- `chunk_text` at the sync engine's constants `CHUNK_MAX_CHARS = 1200`,
`CHUNK_OVERLAP = 150`.  Fuel `length + 1` is sufficient for these
parameters (`chunkGo_isSome`), so the `getD` default is never taken. -/
def chunkTextDefault (text : List Char) : List (List Char) :=
  (chunkTextF ((pyStrip text).length + 1) 1200 150 text).getD []

/-- `chunk_text cfg` diverges on `text`: no amount of fuel finishes it. -/
def ChunkTextDiverges (maxChars overlap : Nat) (text : List Char) : Prop :=
  ∀ fuel, chunkTextF fuel maxChars overlap text = none

/-!
## Chunker of `6.new_rag_test.py` (`smart_chunks`)

```python
def smart_chunks(s, max_chars=1200, overlap=100, min_chars=300):
    s = clean_text(s)
    if not s: return []
    if len(s) <= max_chars:
        return [s] if len(s) >= min_chars else []
    chunks = []; start = 0
    while start < len(s):
        end = min(start + max_chars, len(s))
        if end < len(s):
            window = s[start:end]
            split_idx = max(window.rfind("\n\n"), window.rfind("\n"), window.rfind(". "))
            if split_idx != -1 and split_idx >= min_chars // 2:
                end = start + split_idx + 1
        chunk = s[start:end].strip()
        if len(chunk) >= min_chars: chunks.append(chunk)
        start = max(end - overlap, start + 1)
        if start >= len(s): break
    return chunks or [s]
```
-/

/-- `clean_text` from `6.new_rag_test.py`: CR → LF, then strip. -/
def cleanText (s : List Char) : List Char :=
  pyStrip (s.map fun c => if c = '\r' then '\n' else c)

/-- Python `s.rfind(pat)` for nonempty `pat`: the greatest index at which
`pat` occurs, `-1` if absent. -/
def pyRfind (pat s : List Char) : Int :=
  match ((List.range (s.length + 1)).filter
      (fun i => pat.isPrefixOf (s.drop i))).getLast? with
  | some i => (i : Int)
  | none => -1

/-- One iteration's cut point: back off `end` to the best split inside the
window, as in the body of `smart_chunks` (`end < len(s)` branch). -/
def smartCut (minChars : Nat) (s : List Char) (start e : Nat) : Nat :=
  if e < s.length then
    let window := pySlice s start e
    let splitIdx :=
      max (max (pyRfind ('\n' :: '\n' :: []) window) (pyRfind ('\n' :: []) window))
        (pyRfind ('.' :: ' ' :: []) window)
    if splitIdx ≠ -1 ∧ splitIdx ≥ ((minChars / 2 : Nat) : Int) then
      start + splitIdx.toNat + 1
    else e
  else e

/-- The loop of `smart_chunks`; fuel-indexed.  The loop always advances
`start` by at least one (`max (end - overlap) (start + 1)`), which is the
progress guard of the specification. -/
def smartGo (maxChars overlap minChars : Nat) (s : List Char) :
    Nat → Nat → List (List Char) → Option (List (List Char))
  | 0, _, _ => none
  | fuel + 1, start, acc =>
    if start < s.length then
      let e := smartCut minChars s start (min (start + maxChars) s.length)
      let chunk := pyStrip (pySlice s start e)
      let acc' := if minChars ≤ chunk.length then acc ++ [chunk] else acc
      smartGo maxChars overlap minChars s fuel (max (e - overlap) (start + 1)) acc'
    else some acc

/-- `smart_chunks` from `6.new_rag_test.py`, with explicit fuel. -/
def smartChunksF (fuel maxChars overlap minChars : Nat) (s : List Char) :
    Option (List (List Char)) :=
  let t := cleanText s
  if t = [] then some []
  else if t.length ≤ maxChars then
    some (if minChars ≤ t.length then [t] else [])
  else
    (smartGo maxChars overlap minChars t fuel 0 []).map
      fun cs => if cs = [] then [t] else cs

/-- `smart_chunks`.  Fuel `length + 1` always suffices
(`smartGo_isSome`), so the `getD` default is never taken. -/
def smartChunks (maxChars overlap minChars : Nat) (s : List Char) :
    List (List Char) :=
  (smartChunksF ((cleanText s).length + 1) maxChars overlap minChars s).getD []

/-- `MAX_CHARS_PER_CHUNK` of `6.new_rag_test.py` (default env value). -/
def MAX_CHARS_PER_CHUNK : Nat := 1200

/-- `MIN_CHARS_PER_CHUNK` of `6.new_rag_test.py` (default env value). -/
def MIN_CHARS_PER_CHUNK : Nat := 300

/-- `OVERLAP_CHARS` of `6.new_rag_test.py` (default env value). -/
def OVERLAP_CHARS : Nat := 100

/-!
## Document construction of `6.new_rag_test.py` (`build_documents_from_promo`)
-/

/-- A raw promo dictionary as read from `promos.json`.  Missing string
fields behave like `""` under `promo.get(..., "")`; the `id` field may be
absent (`None`), in which case a fresh uuid hex string is substituted. -/
structure RawPromo where
  title : List Char
  url : List Char
  description : List Char
  period : List Char
  payment_methods : List (List Char)
  category : List Char
  bank : List Char
  index : Nat
  scrape_date : List Char
  id : Option (List Char)
deriving DecidableEq, Repr

/-- Chunk metadata attached by `build_documents_from_promo`. -/
structure DocMeta where
  promo_id : List Char
  chunk_index : Nat
  title : List Char
  url : List Char
  period : List Char
  category : List Char
  bank : List Char
  payment_methods : List (List Char)
  source_index : Nat
  scrape_date : List Char
deriving DecidableEq, Repr

/-- `promo.get("id") or uuid.uuid4().hex`; `fresh` stands for the uuid hex
(`None` and `""` are both falsy in Python). -/
def promoIdOf (promo : RawPromo) (fresh : List Char) : List Char :=
  match promo.id with
  | some i => if i = [] then fresh else i
  | none => fresh

/-- The `base_text` assembled from title / period / description (parts that
are empty strings are filtered out before joining with `"\n\n"`). -/
def baseTextOf (promo : RawPromo) : List Char :=
  let title := cleanText promo.title
  let description := cleanText promo.description
  let period := cleanText promo.period
  let parts :=
    ("Title: ".data ++ title) ::
      ((if period = [] then [] else [("Period: ".data ++ period)]) ++
        (if description = [] then []
         else [("Description:\n".data ++ description)]))
  pyStrip (List.intercalate ('\n' :: '\n' :: []) parts)

/-- Metadata of chunk `i` of a promo. -/
def docMetaOf (promo : RawPromo) (pid : List Char) (i : Nat) : DocMeta :=
  { promo_id := pid
    chunk_index := i
    title := cleanText promo.title
    url := promo.url
    period := cleanText promo.period
    category := promo.category
    bank := promo.bank
    payment_methods := promo.payment_methods
    source_index := promo.index
    scrape_date := promo.scrape_date }

/-- `f"{promo_id}::chunk-{i}"`. -/
def docIdOf (pid : List Char) (i : Nat) : List Char :=
  pid ++ "::chunk-".data ++ (Nat.repr i).data

/-- Zip the chunk list with its indices (the `enumerate` of the source). -/
def docsFromChunks (promo : RawPromo) (pid : List Char) :
    Nat → List (List Char) → List (List Char × List Char × DocMeta)
  | _, [] => []
  | i, ch :: rest =>
    (docIdOf pid i, ch, docMetaOf promo pid i) ::
      docsFromChunks promo pid (i + 1) rest

/-- `build_documents_from_promo` from `6.new_rag_test.py`: chunk the
assembled base text; if no chunk results, emit the single synthetic
fallback document `"Title: …\nURL: …\nPeriod: …"`. -/
def buildDocumentsFromPromo (promo : RawPromo) (fresh : List Char) :
    List (List Char × List Char × DocMeta) :=
  let pid := promoIdOf promo fresh
  let chunks :=
    smartChunks MAX_CHARS_PER_CHUNK OVERLAP_CHARS MIN_CHARS_PER_CHUNK
      (baseTextOf promo)
  let docs := docsFromChunks promo pid 0 chunks
  if docs = [] then
    [(docIdOf pid 0,
      "Title: ".data ++ cleanText promo.title ++ "\nURL: ".data ++ promo.url ++
        "\nPeriod: ".data ++ cleanText promo.period,
      docMetaOf promo pid 0)]
  else docs

/-!
## Sync engine of `3.bca_scraper_senteces.py` (`main`, lines 289–378)

`main` scrapes, then reconciles the Chroma collection:
* `DROP_OLD_COLLECTION = True`, so the collection is deleted and recreated
  empty before anything else; consequently `existing_docs` is empty, the
  removed-promo deletion pass and each per-promo deletion pass delete
  nothing, and the loop reduces to chunk + embed + upsert per promo.
* The per-promo loop has no `try`/`except`: an exception raised while
  embedding a promo propagates out of `main`.  The failure oracle `fail`
  below models `model.encode` raising for a given promo; on failure the
  loop stops and the items not yet processed are returned untouched.
-/

/-- One scraped promo record (the dict built by `crawl_category`). -/
structure PromoItem where
  id : List Char
  title : List Char
  url : List Char
  payment_methods : List (List Char)
  period : List Char
  description : List Char
  category : List Char
  scrape_date : List Char
  bank : List Char
deriving DecidableEq, Repr

/-- Metadata stored with each chunk by the sync engine. -/
structure ChunkMeta where
  parent_id : List Char
  title : List Char
  url : List Char
  payment_methods : List Char
  period : List Char
  category : List Char
  scrape_date : List Char
  bank : List Char
  chunk_index : Nat
deriving DecidableEq, Repr

/-- One record of the chunk store: `(id, document, metadata, embedding)`. -/
structure StoredChunk (E : Type) where
  id : List Char
  document : List Char
  metadata : ChunkMeta
  embedding : E
deriving DecidableEq, Repr

/-- The observable chunk-store state. -/
abbrev Store (E : Type) : Type := List (StoredChunk E)

/-- `f"{parent_id}#chunk-{j}"`. -/
def chunkId (pid : List Char) (j : Nat) : List Char :=
  pid ++ "#chunk-".data ++ (Nat.repr j).data

/-- Python `", ".join(methods)`. -/
def joinComma (l : List (List Char)) : List Char :=
  List.intercalate (',' :: ' ' :: []) l

/-- The metadata dict built for chunk `j` of a scraped promo. -/
def chunkMetaOf (item : PromoItem) (j : Nat) : ChunkMeta :=
  { parent_id := item.id
    title := item.title
    url := item.url
    payment_methods := joinComma item.payment_methods
    period := item.period
    category := item.category
    scrape_date := item.scrape_date
    bank := item.bank
    chunk_index := j }

/-- Build the chunk records of one promo: chunk its description with
`chunk_text`, then attach ids, metadata and embeddings.  `embed` is the
(deterministic) embedding provider applied to the augmented document. -/
def promoChunkRecords {E : Type} (embed : ChunkMeta → List Char → E)
    (item : PromoItem) : List (StoredChunk E) :=
  (List.range (chunkTextDefault item.description).length).zip
      (chunkTextDefault item.description) |>.map
    fun p =>
      { id := chunkId item.id p.1
        document := p.2
        metadata := chunkMetaOf item p.1
        embedding := embed (chunkMetaOf item p.1) p.2 }

/-- `collection.upsert`: records whose id is re-sent are replaced, new ids
are added. -/
def upsertStore {E : Type} (recs : List (StoredChunk E)) (st : Store E) :
    Store E :=
  st.filter (fun c => !((recs.map fun r => r.id).contains c.id)) ++ recs

/-- The per-promo delete step (lines 333–340): delete every chunk of the
`existing_docs` snapshot whose `parent_id` is the promo being refreshed. -/
def deleteStep {E : Type} (snapshot st : Store E) (item : PromoItem) :
    Store E :=
  let idsToDelete :=
    (snapshot.filter fun c => c.metadata.parent_id == item.id).map fun c => c.id
  st.filter fun c => !(idsToDelete.contains c.id)

/-- The per-promo loop of `main` (lines 330–375) with a failure oracle.
Returns the store when the loop exits together with the items left
unprocessed (empty when the loop ran to completion; on a failure the
exception propagates, so the failing item and everything after it is
unprocessed). -/
def syncLoop {E : Type} (embed : ChunkMeta → List Char → E)
    (fail : PromoItem → Bool) (snapshot : Store E) :
    List PromoItem → Store E → Store E × List PromoItem
  | [], st => (st, [])
  | item :: rest, st =>
    let st' := deleteStep snapshot st item
    if fail item then (st', item :: rest)
    else syncLoop embed fail snapshot rest (upsertStore (promoChunkRecords embed item) st')

/-- The sync portion of `main`: drop the collection (`DROP_OLD_COLLECTION`
is `True`), snapshot the (now empty) collection, run the removed-promo
deletion pass, then the per-promo loop with no failures. -/
def syncRun {E : Type} (embed : ChunkMeta → List Char → E)
    (store₀ : Store E) (data : List PromoItem) : Store E :=
  let store₁ : Store E := []
  let existingParentIds : List (List Char) := []
  let scrapedParentIds := data.map fun item => item.id
  let parentIdsToDelete :=
    existingParentIds.filter fun pid => !(scrapedParentIds.contains pid)
  let store₂ :=
    store₁.filter fun c => !(parentIdsToDelete.contains c.metadata.parent_id)
  (syncLoop embed (fun _ => false) store₁ data store₂).1

/-!
## Query engine of `4.bca_scraper_query.py` (and `5.llm_model.py`)

`re.search(rf"\b{re.escape(s)}\b", text)` is modelled by `containsWord`:
`re.escape` makes the synonym a literal, and `\b` holds at a position iff
exactly one of the two adjacent characters is a word character
(`[a-zA-Z0-9_]` for the ASCII alphabet these scripts use); a missing
character (string edge) counts as a non-word character.
-/

/-- A word character of the regex `\b` semantics. -/
def wordChar (c : Char) : Bool :=
  c.isAlphanum || c = '_'

/-- Whether the character at index `i` (if any) is a word character. -/
def wordAt (text : List Char) (i : Nat) : Bool :=
  match text.get? i with
  | some c => wordChar c
  | none => false

/-- `\b` holds at position `i` of `text`. -/
def boundaryAt (text : List Char) (i : Nat) : Bool :=
  xor (if i = 0 then false else wordAt text (i - 1)) (wordAt text i)

/-- `re.search(rf"\b{re.escape(pat)}\b", text)` succeeds (`pat` nonempty). -/
def containsWord (pat text : List Char) : Bool :=
  (List.range (text.length + 1)).any fun i =>
    pat.isPrefixOf (text.drop i) && boundaryAt text i &&
      boundaryAt text (i + pat.length)

/-- `re.search(r"\b20\d{2}\b", text)` succeeds. -/
def containsYear (text : List Char) : Bool :=
  (List.range (text.length + 1)).any fun i =>
    boundaryAt text i && boundaryAt text (i + 4) &&
      (match text.get? i, text.get? (i + 1), text.get? (i + 2), text.get? (i + 3) with
       | some a, some b, some c, some d => a = '2' && b = '0' && c.isDigit && d.isDigit
       | _, _, _, _ => false)

/-- `re.search(rf"\b0?{n}\b", text)` succeeds: the decimal digits of `n`,
optionally preceded by one `'0'`, between `\b` boundaries. -/
def containsOptZeroNum (n : Nat) (text : List Char) : Bool :=
  let ds := (Nat.repr n).data
  (List.range (text.length + 1)).any fun i =>
    boundaryAt text i &&
      ((ds.isPrefixOf (text.drop i) && boundaryAt text (i + ds.length)) ||
        (('0' :: ds).isPrefixOf (text.drop i) &&
          boundaryAt text (i + ds.length + 1)))

/-- `month_table()` from `4.bca_scraper_query.py`, in dict insertion order
(keys `"01"`–`"12"`, ascending). -/
def monthTable : List (List Char × List (List Char)) :=
  [("01".data, strs ["januari", "jan", "jan.", "january", "janv", "01", "1"]),
   ("02".data, strs ["februari", "feb", "feb.", "february", "02", "2"]),
   ("03".data, strs ["maret", "mar", "mar.", "march", "03", "3"]),
   ("04".data, strs ["april", "apr", "apr.", "april.", "04", "4"]),
   ("05".data, strs ["mei", "may", "may.", "mei.", "05", "5"]),
   ("06".data, strs ["juni", "jun", "jun.", "june", "06", "6"]),
   ("07".data, strs ["juli", "jul", "jul.", "july", "07", "7"]),
   ("08".data, strs ["agustus", "agus", "aug", "aug.", "august", "08", "8"]),
   ("09".data, strs ["september", "sep", "sept", "sept.", "09", "9"]),
   ("10".data, strs ["oktober", "okt", "okt.", "oct", "oct.", "october", "10"]),
   ("11".data, strs ["november", "nov", "nov.", "11"]),
   ("12".data, strs ["desember", "des", "des.", "dec", "dec.", "december", "12"])]

/-- `mts.get(mm, [])`. -/
def tableSyns (mm : List Char) : List (List Char) :=
  ((monthTable.find? fun e => e.1 == mm).map fun e => e.2).getD []

/-- `detect_months(q)`: the sorted set of month codes with a synonym
occurring word-bounded in `q.lower()`.  Since the table is iterated in
ascending key order and each code appears once, filtering the table is the
`sorted(found)` of the source. -/
def detectMonths (q : List Char) : List (List Char) :=
  (monthTable.filter fun e =>
      e.2.any fun s => containsWord s (lowerChars q)).map fun e => e.1

/-- `int(mm)` for the two-digit month codes. -/
def codeNum (mm : List Char) : Nat :=
  mm.foldl (fun a c => a * 10 + (c.toNat - '0'.toNat)) 0

/-- Python `f"{k:02d}"` for `k < 100`. -/
def pad2 (k : Nat) : List Char :=
  if k < 10 then '0' :: (Nat.repr k).data else (Nat.repr k).data

/-- `f"{(int(mm)-2)%12+1:02d}"`: the previous month's code, wrapping
January → December (Python `%` on a negative operand is `Int.emod`). -/
def prevCode (n : Nat) : List Char :=
  pad2 (((n : Int) - 2) % 12 + 1).toNat

/-- `f"{int(mm)%12+1:02d}"`: the next month's code, wrapping
December → January. -/
def nextCode (n : Nat) : List Char :=
  pad2 (n % 12 + 1)

/-- `base_score(distance) = 1.0 - distance`. -/
def baseScore (distance : ℚ) : ℚ :=
  1 - distance

/-- The text a candidate is matched against:
`" ".join([str(period), str(title), doc or ""]).lower()`. -/
def candText (period title doc : List Char) : List Char :=
  lowerChars (period ++ (' ' :: []) ++ title ++ (' ' :: []) ++ doc)

/-- The direct-synonym condition of `month_boost` for one month code. -/
def directHit (mm : List Char) (text : List Char) : Bool :=
  (tableSyns mm).any fun s => containsWord s text

/-- The year co-occurrence condition of `month_boost` for one month code. -/
def yearHit (mm : List Char) (text : List Char) : Bool :=
  containsYear text &&
    (containsWord mm text || containsOptZeroNum (codeNum mm) text)

/-- The near-miss condition of `month_boost`: a direct synonym match
together with a synonym of the next or the previous month. -/
def nearHit (mm : List Char) (text : List Char) : Bool :=
  (directHit mm text &&
      ((tableSyns (nextCode (codeNum mm))).any fun s => containsWord s text)) ||
    (directHit mm text &&
      ((tableSyns (prevCode (codeNum mm))).any fun s => containsWord s text))

/-- `month_boost(meta, doc, months)` from `4.bca_scraper_query.py`:
`b` starts at `0.0` and for each detected month gains `0.12` on a direct
synonym match, `0.05` on the year condition and `0.08` on the near-miss
condition. -/
def monthBoost (period title doc : List Char) (months : List (List Char)) : ℚ :=
  let text := candText period title doc
  months.foldl
    (fun b mm =>
      let b := if directHit mm text then b + 0.12 else b
      let b := if yearHit mm text then b + 0.05 else b
      if nearHit mm text then b + 0.08 else b)
    0

/-- Candidate metadata as returned by `collection.query` (dict `meta or {}`;
a missing key reads as the falsy `""`). -/
structure CandMeta where
  parent_id : List Char
  idKey : List Char
  title : List Char
  period : List Char
deriving DecidableEq, Repr, Inhabited

/-- One row of the raw nearest-neighbour result. -/
structure CandRow where
  doc : List Char
  meta : CandMeta
  dist : ℚ
deriving DecidableEq, Repr

/-- One entry of the `items` list. -/
structure Item where
  parent_id : List Char
  score : ℚ
  base_similarity : ℚ
  document : List Char
  meta : CandMeta
deriving DecidableEq, Repr, Inhabited

/-- `meta.get("parent_id") or meta.get("id") or f"row-{i}"` (empty strings
and missing keys are falsy). -/
def pidOf (i : Nat) (meta : CandMeta) : List Char :=
  if meta.parent_id ≠ [] then meta.parent_id
  else if meta.idKey ≠ [] then meta.idKey
  else "row-".data ++ (Nat.repr i).data

/-- Build one entry of `items` from row `i`. -/
def mkItem (months : List (List Char)) (i : Nat) (row : CandRow) : Item :=
  { parent_id := pidOf i row.meta
    score := baseScore row.dist +
      monthBoost row.meta.period row.meta.title row.doc months
    base_similarity := baseScore row.dist
    document := row.doc
    meta := row.meta }

/-- The `items` loop (`for i, doc in enumerate(raw["documents"][0])`). -/
def mkItems (months : List (List Char)) (i : Nat) :
    List CandRow → List Item
  | [] => []
  | row :: rest => mkItem months i row :: mkItems months (i + 1) rest

/-- One step of the `best_by_parent` dict build: replace the entry of the
item's parent when the new score is strictly greater, insert the parent at
the end when absent (Python dicts preserve insertion order). -/
def insertBest (it : Item) : List (List Char × Item) → List (List Char × Item)
  | [] => [(it.parent_id, it)]
  | (p, cur) :: rest =>
    if p = it.parent_id then
      (if it.score > cur.score then (p, it) else (p, cur)) :: rest
    else (p, cur) :: insertBest it rest

/-- `best_by_parent` as an insertion-ordered association list. -/
def bestByParent (items : List Item) : List (List Char × Item) :=
  items.foldl (fun acc it => insertBest it acc) []

/-- `sorted(best_by_parent.values(), key=lambda x: x["score"], reverse=True)[:n]`
(a stable descending sort on the score, then the top `n`). -/
def rerankTake (n : Nat) (items : List Item) : List Item :=
  (((bestByParent items).map fun e => e.2).mergeSort
      fun a b => b.score ≤ a.score).take n

/-- The per-month contribution of `month_boost`. -/
def monthContrib (mm text : List Char) : ℚ :=
  (if directHit mm text then (0.12 : ℚ) else 0) +
    (if yearHit mm text then (0.05 : ℚ) else 0) +
    (if nearHit mm text then (0.08 : ℚ) else 0)

/-- The invariant of the `best_by_parent` fold: keys are distinct, every
stored entry is one of the already-seen items, is keyed by its own parent
id, and has the maximal score among the seen items of that parent; every
seen item's parent has an entry. -/
def BestInv (seen : List Item) (acc : List (List Char × Item)) : Prop :=
  (acc.map fun e => e.1).Nodup ∧
    (∀ s ∈ seen, s.parent_id ∈ acc.map fun e => e.1) ∧
    ∀ e ∈ acc, e.2 ∈ seen ∧ e.2.parent_id = e.1 ∧
      ∀ s ∈ seen, s.parent_id = e.1 → s.score ≤ e.2.score

/-!
## Concrete fixtures used by the counterexamples and witnesses
-/

/-- A scraped promo whose page yielded an empty description. -/
def promoEmptyDesc : PromoItem :=
  { id := "p1".data
    title := "Promo Kartu".data
    url := "https://promo.bca.co.id/id/p1".data
    payment_methods := []
    period := "01-10 Jan 2025".data
    description := []
    category := "Travel".data
    scrape_date := "2025-08-01".data
    bank := "BCA".data }

/-- A scraped promo with a real description. -/
def promoWithDesc : PromoItem :=
  { id := "b2".data
    title := "Promo Resto".data
    url := "https://promo.bca.co.id/id/b2".data
    payment_methods := ["Kartu Kredit BCA".data]
    period := "05-17 Agu 2025".data
    description := "Diskon 50 persen untuk semua menu.".data
    category := "Food".data
    scrape_date := "2025-08-01".data
    bank := "BCA".data }

/-- A raw promo dictionary with an empty description (and a short title), so
that chunking produces nothing and the synthetic fallback fires. -/
def rawPromoEmpty : RawPromo :=
  { title := "Promo A".data
    url := "https://promo.bca.co.id/id/a".data
    description := []
    period := "05-17 Agu 2025".data
    payment_methods := []
    category := "Travel".data
    bank := "BCA".data
    index := 0
    scrape_date := "2025-08-01".data
    id := some ("deadbeef".data) }

/-- A nearest-neighbour result row used in witnesses. -/
def exampleRow : CandRow :=
  { doc := "Diskon restoran".data
    meta := { parent_id := "b2".data
              idKey := []
              title := "Promo Resto".data
              period := "05-17 Agu 2025".data }
    dist := 0.25 }

/-!
## Lemmas about the chunkers
-/

lemma chunkGo_zero (m o : Nat) (t : List Char) (s : Nat) (a : List (List Char)) :
    chunkGo m o t 0 s a = none := rfl

lemma chunkGo_succ (m o : Nat) (t : List Char) (f s : Nat) (a : List (List Char)) :
    chunkGo m o t (f + 1) s a =
      if s < t.length then
        if min (s + m) t.length = t.length then
          some (a ++ [pySlice t s (min (s + m) t.length)])
        else chunkGo m o t f (min (s + m) t.length - o) (a ++ [pySlice t s (min (s + m) t.length)])
      else some a := rfl

/-- With `overlap < maxChars` the loop of `chunk_text` advances by at least
one character per iteration, so fuel `t.length - start + 1` suffices. -/
lemma chunkGo_isSome (m o : Nat) (t : List Char) (ho : o < m) :
    ∀ fuel start acc, t.length - start < fuel →
      (chunkGo m o t fuel start acc).isSome := by
  intro fuel
  induction fuel with
  | zero => intro start acc h; omega
  | succ f ih =>
    intro start acc h
    rw [chunkGo_succ]
    by_cases hs : start < t.length
    · simp only [hs, if_true]
      by_cases he : min (start + m) t.length = t.length
      · simp [he]
      · simp only [he, if_false]
        apply ih
        omega
    · simp [hs]

lemma chunkGo_acc_ne_nil (m o : Nat) (t : List Char) :
    ∀ fuel start acc r, chunkGo m o t fuel start acc = some r →
      acc ≠ [] → r ≠ [] := by
  intro fuel
  induction fuel with
  | zero => intro start acc r h; simp [chunkGo_zero] at h
  | succ f ih =>
    intro start acc r h ha
    rw [chunkGo_succ] at h
    by_cases hs : start < t.length
    · simp only [hs, if_true] at h
      by_cases he : min (start + m) t.length = t.length
      · simp only [he, if_true, Option.some.injEq] at h
        subst h; simp
      · simp only [he, if_false] at h
        exact ih _ _ _ h (by simp)
    · simp only [hs, if_false, Option.some.injEq] at h
      subst h; exact ha

/-- A run of the `chunk_text` loop entered with `start < length` produces at
least one chunk (the first iteration always appends). -/
lemma chunkGo_ne_nil (m o : Nat) (t : List Char) (fuel start : Nat)
    (acc r : List (List Char)) (h : chunkGo m o t fuel start acc = some r)
    (hs : start < t.length) : r ≠ [] := by
  cases fuel with
  | zero => simp [chunkGo_zero] at h
  | succ f =>
    rw [chunkGo_succ] at h
    simp only [hs, if_true] at h
    by_cases he : min (start + m) t.length = t.length
    · simp only [he, if_true, Option.some.injEq] at h
      subst h; simp
    · simp only [he, if_false] at h
      exact chunkGo_acc_ne_nil m o t f _ _ r h (by simp)

/-- `chunk_text` at the sync engine's parameters returns `[]` exactly on
descriptions that strip to the empty string. -/
lemma chunkTextDefault_eq_nil_iff (d : List Char) :
    chunkTextDefault d = [] ↔ pyStrip d = [] := by
  unfold chunkTextDefault chunkTextF
  by_cases h : pyStrip d = []
  · simp [h]
  · simp only [h, if_false]
    have hlen : 0 < (pyStrip d).length := List.length_pos.mpr h
    have hsome := chunkGo_isSome 1200 150 (pyStrip d) (by norm_num)
      ((pyStrip d).length + 1) 0 [] (by omega)
    obtain ⟨r, hr⟩ := Option.isSome_iff_exists.mp hsome
    rw [hr]
    simpa [h] using chunkGo_ne_nil 1200 150 (pyStrip d) _ 0 [] r hr hlen

lemma smartGo_zero (m o mi : Nat) (t : List Char) (s : Nat) (a : List (List Char)) :
    smartGo m o mi t 0 s a = none := rfl

lemma smartGo_succ (m o mi : Nat) (t : List Char) (f s : Nat) (a : List (List Char)) :
    smartGo m o mi t (f + 1) s a =
      if s < t.length then
        smartGo m o mi t f
          (max (smartCut mi t s (min (s + m) t.length) - o) (s + 1))
          (if mi ≤ (pyStrip (pySlice t s (smartCut mi t s (min (s + m) t.length)))).length
           then a ++ [pyStrip (pySlice t s (smartCut mi t s (min (s + m) t.length)))]
           else a)
      else some a := rfl

/-- The `smart_chunks` loop advances `start` by at least one character per
iteration, so fuel `t.length - start + 1` always suffices: the loop
terminates for every parameter choice. -/
lemma smartGo_isSome (m o mi : Nat) (t : List Char) :
    ∀ fuel start acc, t.length - start < fuel →
      (smartGo m o mi t fuel start acc).isSome := by
  intro fuel
  induction fuel with
  | zero => intro start acc h; omega
  | succ f ih =>
    intro start acc h
    rw [smartGo_succ]
    by_cases hs : start < t.length
    · simp only [hs, if_true]
      apply ih
      have : start + 1 ≤ max (smartCut mi t start (min (start + m) t.length) - o) (start + 1) :=
        le_max_right _ _
      omega
    · simp [hs]

/-- Every chunk the `smart_chunks` loop appends has length at least
`min_chars`; chunks already in the accumulator are preserved. -/
lemma smartGo_min_length (m o mi : Nat) (t : List Char) :
    ∀ fuel start acc r, smartGo m o mi t fuel start acc = some r →
      (∀ c ∈ acc, mi ≤ c.length) → ∀ c ∈ r, mi ≤ c.length := by
  intro fuel
  induction fuel with
  | zero => intro start acc r h; simp [smartGo_zero] at h
  | succ f ih =>
    intro start acc r h ha
    rw [smartGo_succ] at h
    by_cases hs : start < t.length
    · simp only [hs, if_true] at h
      refine ih _ _ _ h ?_
      by_cases hm : mi ≤ (pyStrip (pySlice t start (smartCut mi t start (min (start + m) t.length)))).length
      · simp only [hm, if_true]
        intro c hc
        rcases List.mem_append.mp hc with hc | hc
        · exact ha c hc
        · simp only [List.mem_singleton] at hc
          subst hc; exact hm
      · simpa [hm] using ha
    · simp only [hs, if_false, Option.some.injEq] at h
      subst h; exact ha

/-!
## Lemmas about the sync engine
-/

/-- With an empty `existing_docs` snapshot the per-promo delete pass removes
nothing. -/
lemma deleteStep_nil {E : Type} (st : Store E) (item : PromoItem) :
    deleteStep ([] : Store E) st item = st := by
  unfold deleteStep
  simp

/-- `upsert` of records whose ids are all new appends them. -/
lemma upsertStore_disjoint {E : Type} (recs : List (StoredChunk E)) (st : Store E)
    (h : ∀ c ∈ st, ∀ r ∈ recs, c.id ≠ r.id) :
    upsertStore recs st = st ++ recs := by
  unfold upsertStore
  congr 1
  apply List.filter_eq_self.mpr
  intro c hc
  have hmem : c.id ∉ recs.map fun r => r.id := by
    intro hmem
    rcases List.mem_map.mp hmem with ⟨r, hr, hid⟩
    exact h c hc r hr hid.symm
  simpa using hmem

/-- Splitting at the first `'#'`: two decompositions `p ++ '#' :: r` with
`'#'`-free prefixes agree. -/
lemma hashSplit : ∀ p₁ p₂ r₁ r₂ : List Char, ('#' : Char) ∉ p₁ → ('#' : Char) ∉ p₂ →
    p₁ ++ '#' :: r₁ = p₂ ++ '#' :: r₂ → p₁ = p₂ ∧ r₁ = r₂ := by
  intro p₁
  induction p₁ with
  | nil =>
    intro p₂ r₁ r₂ _ h₂ heq
    cases p₂ with
    | nil => simpa using heq
    | cons c p₂ =>
      simp only [List.nil_append, List.cons_append, List.cons.injEq] at heq
      exact absurd (heq.1 ▸ List.mem_cons_self c p₂) h₂
  | cons c p₁ ih =>
    intro p₂ r₁ r₂ h₁ h₂ heq
    cases p₂ with
    | nil =>
      simp only [List.nil_append, List.cons_append, List.cons.injEq] at heq
      exact absurd (heq.1.symm ▸ List.mem_cons_self c p₁) h₁
    | cons d p₂ =>
      simp only [List.cons_append, List.cons.injEq] at heq
      obtain ⟨hp, hr⟩ := ih p₂ r₁ r₂ (fun hm => h₁ (List.mem_cons_of_mem c hm))
        (fun hm => h₂ (List.mem_cons_of_mem d hm)) heq.2
      exact ⟨by rw [heq.1, hp], hr⟩

/-- Chunk ids of distinct `'#'`-free parents never collide: the parent id is
recoverable as everything before the first `'#'` of the chunk id. -/
lemma chunkId_parent_eq (p₁ p₂ : List Char) (j₁ j₂ : Nat)
    (h₁ : ('#' : Char) ∉ p₁) (h₂ : ('#' : Char) ∉ p₂)
    (h : chunkId p₁ j₁ = chunkId p₂ j₂) : p₁ = p₂ := by
  unfold chunkId at h
  have h' : p₁ ++ '#' :: ("chunk-".data ++ (Nat.repr j₁).data) =
      p₂ ++ '#' :: ("chunk-".data ++ (Nat.repr j₂).data) := by
    simpa [List.append_assoc] using h
  exact (hashSplit p₁ p₂ _ _ h₁ h₂ h').1

/-- Every record built for a promo carries that promo's id as parent and a
`chunkId`-shaped id. -/
lemma promoChunkRecords_shape {E : Type} (embed : ChunkMeta → List Char → E)
    (item : PromoItem) (r : StoredChunk E) (hr : r ∈ promoChunkRecords embed item) :
    r.metadata.parent_id = item.id ∧ ∃ j, r.id = chunkId item.id j := by
  unfold promoChunkRecords at hr
  rcases List.mem_map.mp hr with ⟨p, _, hp⟩
  subst hp
  exact ⟨rfl, p.1, rfl⟩

/-- `promoChunkRecords` is empty exactly when `chunk_text` of the
description is empty. -/
lemma promoChunkRecords_eq_nil_iff {E : Type} (embed : ChunkMeta → List Char → E)
    (item : PromoItem) :
    promoChunkRecords embed item = [] ↔ chunkTextDefault item.description = [] := by
  unfold promoChunkRecords
  simp [List.map_eq_nil_iff, List.zip_eq_nil_iff, List.range_eq_nil]

/-- The no-failure sync loop over promos whose chunks never collide with the
store or with each other appends each promo's chunk records in turn. -/
lemma syncLoop_flat {E : Type} (embed : ChunkMeta → List Char → E) :
    ∀ (data : List PromoItem) (st : Store E),
      (∀ it ∈ data, ('#' : Char) ∉ it.id) →
      (data.map fun it => it.id).Nodup →
      (∀ c ∈ st, ∃ p j, ('#' : Char) ∉ p ∧ p ∉ data.map (fun it => it.id) ∧
        c.id = chunkId p j) →
      syncLoop embed (fun _ => false) ([] : Store E) data st =
        (st ++ data.flatMap (promoChunkRecords embed), []) := by
  intro data
  induction data with
  | nil => intro st _ _ _; simp [syncLoop]
  | cons item rest ih =>
    intro st hfree hnodup hst
    obtain ⟨hhead, htail⟩ : (∀ x ∈ rest, ¬x.id = item.id) ∧
        (rest.map fun it => it.id).Nodup := by simpa using hnodup
    show syncLoop embed (fun _ => false) ([] : Store E) (item :: rest) st = _
    rw [syncLoop]
    simp only [if_false, deleteStep_nil]
    have hfree_item : ('#' : Char) ∉ item.id := hfree item (List.mem_cons_self _ _)
    have hup : upsertStore (promoChunkRecords embed item) st =
        st ++ promoChunkRecords embed item := by
      apply upsertStore_disjoint
      intro c hc r hr
      obtain ⟨p, j, hp, hpnot, hcid⟩ := hst c hc
      obtain ⟨_, j', hrid⟩ := promoChunkRecords_shape embed item r hr
      rw [hcid, hrid]
      intro heq
      exact hpnot (chunkId_parent_eq p item.id j j' hp hfree_item heq ▸
        List.mem_cons_self _ _)
    rw [hup]
    rw [ih (st ++ promoChunkRecords embed item)
      (fun it hit => hfree it (List.mem_cons_of_mem _ hit)) htail ?_]
    · simp [List.flatMap_cons, List.append_assoc]
    · intro c hc
      rcases List.mem_append.mp hc with hc | hc
      · obtain ⟨p, j, hp, hpnot, hcid⟩ := hst c hc
        exact ⟨p, j, hp, fun hm => hpnot (List.mem_cons_of_mem _ hm), hcid⟩
      · obtain ⟨_, j, hrid⟩ := promoChunkRecords_shape embed item c hc
        refine ⟨item.id, j, hfree_item, ?_, hrid⟩
        intro hm
        rcases List.mem_map.mp hm with ⟨x, hx, hid⟩
        exact hhead x hx hid

/-- Under the scraper's id discipline (distinct, `'#'`-free sha256-hex promo
ids) a sync run stores exactly the concatenation of the per-promo chunk
records. -/
lemma syncRun_eq_flat {E : Type} (embed : ChunkMeta → List Char → E)
    (store₀ : Store E) (data : List PromoItem)
    (hfree : ∀ it ∈ data, ('#' : Char) ∉ it.id)
    (hnodup : (data.map fun it => it.id).Nodup) :
    syncRun embed store₀ data = data.flatMap (promoChunkRecords embed) := by
  unfold syncRun
  simp only [List.filter_nil]
  rw [syncLoop_flat embed data _ hfree hnodup (by intro c hc; simp at hc)]
  simp

/-!
## Lemmas about the query engine
-/

lemma monthBoost_fold (text : List Char) :
    ∀ (months : List (List Char)) (b : ℚ),
      months.foldl
        (fun b mm =>
          let b := if directHit mm text then b + 0.12 else b
          let b := if yearHit mm text then b + 0.05 else b
          if nearHit mm text then b + 0.08 else b)
        b = b + (months.map fun mm => monthContrib mm text).sum := by
  intro months
  induction months with
  | nil => intro b; simp
  | cons mm rest ih =>
    intro b
    rw [List.foldl_cons, ih, List.map_cons, List.sum_cons]
    have hstep :
        (let b' := if directHit mm text then b + 0.12 else b
         let b'' := if yearHit mm text then b' + 0.05 else b'
         if nearHit mm text then b'' + 0.08 else b'') =
          b + monthContrib mm text := by
      unfold monthContrib
      split_ifs <;> ring
    rw [hstep]
    ring

/-- `month_boost` is the sum of the per-month contributions. -/
lemma monthBoost_eq_sum (period title doc : List Char)
    (months : List (List Char)) :
    monthBoost period title doc months =
      (months.map fun mm => monthContrib mm (candText period title doc)).sum := by
  unfold monthBoost
  rw [monthBoost_fold (candText period title doc) months 0]
  ring

/-- Without a direct synonym match the near-miss branch never fires. -/
lemma nearHit_false_of_directHit_false (mm text : List Char)
    (h : directHit mm text = false) : nearHit mm text = false := by
  unfold nearHit
  simp [h]

/-- A direct synonym match contributes at least `0.12`. -/
lemma monthContrib_ge_of_directHit (mm text : List Char)
    (h : directHit mm text = true) : (0.12 : ℚ) ≤ monthContrib mm text := by
  unfold monthContrib
  rw [h, if_pos rfl]
  have h1 : (0 : ℚ) ≤ if yearHit mm text then (0.05 : ℚ) else 0 := by
    split_ifs <;> norm_num
  have h2 : (0 : ℚ) ≤ if nearHit mm text then (0.08 : ℚ) else 0 := by
    split_ifs <;> norm_num
  linarith

/-- Without a direct synonym match the contribution is at most `0.05`. -/
lemma monthContrib_le_of_not_directHit (mm text : List Char)
    (h : directHit mm text = false) : monthContrib mm text ≤ (0.05 : ℚ) := by
  unfold monthContrib
  rw [h, nearHit_false_of_directHit_false mm text h]
  simp only [Bool.false_eq_true, if_false]
  split_ifs <;> norm_num

lemma insertBest_keys_of_not_mem (it : Item) :
    ∀ acc : List (List Char × Item), it.parent_id ∉ acc.map (fun e => e.1) →
      (insertBest it acc).map (fun e => e.1) =
        acc.map (fun e => e.1) ++ [it.parent_id] := by
  intro acc
  induction acc with
  | nil => intro _; simp [insertBest]
  | cons e rest ih =>
    intro h
    simp only [List.map_cons, List.mem_cons] at h
    push_neg at h
    rw [insertBest]
    rw [if_neg (fun hh => h.1 hh.symm)]
    simp only [List.map_cons, List.cons_append, List.cons.injEq, true_and]
    exact ih h.2

lemma insertBest_keys_of_mem (it : Item) :
    ∀ acc : List (List Char × Item), it.parent_id ∈ acc.map (fun e => e.1) →
      (insertBest it acc).map (fun e => e.1) = acc.map (fun e => e.1) := by
  intro acc
  induction acc with
  | nil => intro h; simp at h
  | cons e rest ih =>
    intro h
    rw [insertBest]
    by_cases hp : e.1 = it.parent_id
    · rw [if_pos hp]
      split_ifs <;> simp [hp]
    · rw [if_neg hp]
      simp only [List.map_cons, List.mem_cons] at h
      rcases h with h | h
      · exact absurd h.symm hp
      · simp [ih h]

lemma insertBest_keys_nodup (it : Item) (acc : List (List Char × Item))
    (h : (acc.map fun e => e.1).Nodup) :
    ((insertBest it acc).map fun e => e.1).Nodup := by
  by_cases hm : it.parent_id ∈ acc.map (fun e => e.1)
  · rw [insertBest_keys_of_mem it acc hm]; exact h
  · rw [insertBest_keys_of_not_mem it acc hm]
    simp [List.nodup_append, h, hm]

/-- `insertBest` either appends a fresh key at the end or replaces the
first (unique, by construction) entry of the item's parent in place. -/
lemma insertBest_cases (it : Item) :
    ∀ acc : List (List Char × Item),
      (it.parent_id ∉ acc.map (fun e => e.1) ∧
        insertBest it acc = acc ++ [(it.parent_id, it)]) ∨
      (∃ pre cur post, acc = pre ++ (it.parent_id, cur) :: post ∧
        it.parent_id ∉ pre.map (fun e => e.1) ∧
        insertBest it acc =
          pre ++ (it.parent_id, if it.score > cur.score then it else cur) :: post) := by
  intro acc
  induction acc with
  | nil => left; simp [insertBest]
  | cons hd rest ih =>
    by_cases hp : hd.1 = it.parent_id
    · right
      refine ⟨[], hd.2, rest, ?_, by simp, ?_⟩
      · have heta : hd = (it.parent_id, hd.2) := by
          rw [← hp]
        rw [List.nil_append, ← heta]
      · rw [insertBest, if_pos hp]
        rw [List.nil_append]
        have hpush : (if it.score > hd.2.score then (hd.1, it) else (hd.1, hd.2)) =
            (it.parent_id, if it.score > hd.2.score then it else hd.2) := by
          split_ifs <;> rw [hp]
        rw [hpush]
    · rcases ih with ⟨hnm, heq⟩ | ⟨pre, cur, post, hacc, hnm, heq⟩
      · left
        constructor
        · simp only [List.map_cons, List.mem_cons]
          push_neg
          exact ⟨fun h => hp h.symm, hnm⟩
        · rw [insertBest, if_neg hp, heq]
          simp
      · right
        refine ⟨hd :: pre, cur, post, by rw [hacc]; simp, ?_, ?_⟩
        · simp only [List.map_cons, List.mem_cons]
          push_neg
          exact ⟨fun h => hp h.symm, hnm⟩
        · rw [insertBest, if_neg hp, heq]
          simp

lemma insertBest_inv (it : Item) (seen : List Item)
    (acc : List (List Char × Item)) (hinv : BestInv seen acc) :
    BestInv (seen ++ [it]) (insertBest it acc) := by
  obtain ⟨hnodup, hcover, hent⟩ := hinv
  rcases insertBest_cases it acc with ⟨hnm, heq⟩ | ⟨pre, cur, post, hacc, hnmpre, heq⟩
  · rw [heq]
    refine ⟨?_, ?_, ?_⟩
    · simpa [List.nodup_append, hnm] using hnodup
    · intro s hs
      rw [List.map_append]
      rcases List.mem_append.mp hs with hs | hs
      · exact List.mem_append_left _ (hcover s hs)
      · simp only [List.mem_singleton] at hs
        subst hs
        exact List.mem_append_right _ (by simp)
    · intro e he
      rcases List.mem_append.mp he with hea | heb
      · obtain ⟨hm, hpid, hmax⟩ := hent e hea
        refine ⟨List.mem_append_left _ hm, hpid, ?_⟩
        intro s hs hspid
        rcases List.mem_append.mp hs with hsa | hsb
        · exact hmax s hsa hspid
        · rw [List.mem_singleton] at hsb
          have hmem : e.1 ∈ acc.map fun e => e.1 := List.mem_map.mpr ⟨e, hea, rfl⟩
          rw [← hspid, hsb] at hmem
          exact absurd hmem hnm
      · rw [List.mem_singleton] at heb
        subst heb
        refine ⟨List.mem_append_right _ (by simp), rfl, ?_⟩
        intro s hs hspid
        rcases List.mem_append.mp hs with hsa | hsb
        · have hmem := hcover s hsa
          rw [hspid] at hmem
          exact absurd hmem hnm
        · rw [List.mem_singleton] at hsb
          rw [hsb]
  · subst hacc
    obtain ⟨hcur_mem, hcur_pid, hcur_max⟩ :=
      hent (it.parent_id, cur) (by simp)
    have hkeys :
        ((pre ++ (it.parent_id, if it.score > cur.score then it else cur) :: post).map
          fun e => e.1) =
        ((pre ++ (it.parent_id, cur) :: post).map fun e => e.1) := by
      simp
    have hdisj := hnodup
    rw [List.map_append, List.nodup_append] at hdisj
    rw [heq]
    refine ⟨?_, ?_, ?_⟩
    · rw [hkeys]; exact hnodup
    · intro s hs
      rw [hkeys]
      rcases List.mem_append.mp hs with hs | hs
      · exact hcover s hs
      · simp only [List.mem_singleton] at hs
        subst hs
        rw [List.map_append]
        exact List.mem_append_right _ (by simp)
    · intro e he
      rcases List.mem_append.mp he with hea | heb
      · -- an untouched entry before the replaced one
        have he' : e ∈ pre ++ (it.parent_id, cur) :: post :=
          List.mem_append_left _ hea
        obtain ⟨hm, hpid, hmax⟩ := hent e he'
        refine ⟨List.mem_append_left _ hm, hpid, ?_⟩
        intro s hs hspid
        rcases List.mem_append.mp hs with hsa | hsb
        · exact hmax s hsa hspid
        · rw [List.mem_singleton] at hsb
          have hne : e.1 ≠ it.parent_id := by
            intro hcontra
            have h1 : e.1 ∈ pre.map fun e => e.1 := List.mem_map.mpr ⟨e, hea, rfl⟩
            rw [hcontra] at h1
            exact hdisj.2.2 h1 (by simp)
          rw [hsb] at hspid
          exact absurd hspid.symm hne
      · rcases List.mem_cons.mp heb with heb1 | heb2
        · -- the replaced entry
          refine ⟨?_, ?_, ?_⟩
          · rw [heb1]
            by_cases hsc : it.score > cur.score
            · simp only [hsc, if_true]
              exact List.mem_append_right _ (by simp)
            · simp only [hsc, if_false]
              exact List.mem_append_left _ hcur_mem
          · rw [heb1]
            by_cases hsc : it.score > cur.score
            · simp [hsc]
            · simp only [hsc, if_false]
              exact hcur_pid
          · intro s hs hspid
            rw [heb1]
            rw [heb1] at hspid
            have hle : s.score ≤ cur.score ∨ s = it := by
              rcases List.mem_append.mp hs with hsa | hsb
              · exact Or.inl (hcur_max s hsa (by simpa using hspid))
              · rw [List.mem_singleton] at hsb
                exact Or.inr hsb
            by_cases hsc : it.score > cur.score
            · simp only [hsc, if_true]
              rcases hle with hle | hle
              · exact le_of_lt (lt_of_le_of_lt hle hsc)
              · rw [hle]
            · simp only [hsc, if_false]
              rcases hle with hle | hle
              · exact hle
              · rw [hle]
                exact le_of_not_lt hsc
        · -- an untouched entry after the replaced one
          have he' : e ∈ pre ++ (it.parent_id, cur) :: post :=
            List.mem_append_right _ (List.mem_cons_of_mem _ heb2)
          obtain ⟨hm, hpid, hmax⟩ := hent e he'
          refine ⟨List.mem_append_left _ hm, hpid, ?_⟩
          intro s hs hspid
          rcases List.mem_append.mp hs with hsa | hsb
          · exact hmax s hsa hspid
          · rw [List.mem_singleton] at hsb
            have hne : e.1 ≠ it.parent_id := by
              intro hcontra
              have h1 : e.1 ∈ post.map fun e => e.1 := List.mem_map.mpr ⟨e, heb2, rfl⟩
              have hnd := hdisj.2.1
              rw [List.map_cons, List.nodup_cons] at hnd
              rw [hcontra] at h1
              exact hnd.1 h1
            rw [hsb] at hspid
            exact absurd hspid.symm hne

/-- `docsFromChunks` is empty exactly on the empty chunk list. -/
lemma docsFromChunks_eq_nil_iff (promo : RawPromo) (pid : List Char) (i : Nat)
    (chunks : List (List Char)) :
    docsFromChunks promo pid i chunks = [] ↔ chunks = [] := by
  cases chunks <;> simp [docsFromChunks]

/-- Every member of the `items` list is `mkItem` of some row. -/
lemma mkItems_mem (months : List (List Char)) :
    ∀ (rows : List CandRow) (i : Nat) (it : Item), it ∈ mkItems months i rows →
      ∃ k row, row ∈ rows ∧ it = mkItem months k row := by
  intro rows
  induction rows with
  | nil => intro i it h; simp [mkItems] at h
  | cons row rest ih =>
    intro i it h
    rw [mkItems] at h
    rcases List.mem_cons.mp h with h | h
    · exact ⟨i, row, List.mem_cons_self _ _, h⟩
    · obtain ⟨k, row', hrow', heq⟩ := ih (i + 1) it h
      exact ⟨k, row', List.mem_cons_of_mem _ hrow', heq⟩

/-- The `best_by_parent` fold establishes the invariant. -/
lemma bestByParent_inv (items : List Item) : BestInv items (bestByParent items) := by
  suffices h : ∀ (l : List Item) (seen : List Item) (acc : List (List Char × Item)),
      BestInv seen acc → BestInv (seen ++ l) (l.foldl (fun a it => insertBest it a) acc) by
    have := h items [] [] ⟨by simp, by simp, by simp⟩
    simpa [bestByParent] using this
  intro l
  induction l with
  | nil => intro seen acc h; simpa using h
  | cons it rest ih =>
    intro seen acc h
    have h1 := insertBest_inv it seen acc h
    have h2 := ih (seen ++ [it]) (insertBest it acc) h1
    simpa [List.append_assoc] using h2

/-!
## Claim theorems
-/

/-- C1 (counterexample): the claim fails for a scraped record whose
description is empty — `chunk_text` of `3.bca_scraper_senteces.py` returns
no chunk for it and `main` inserts no synthetic fallback, so after sync the
store holds no chunk with that record's `parent_id`, while the record's
promo id is in the scrape. -/
theorem C1_counterexample :
    promoEmptyDesc.description = [] ∧
    [promoEmptyDesc].map PromoItem.id = ["p1".data] ∧
    (syncRun (fun _ _ => (0 : Nat)) [] [promoEmptyDesc]).map
      (fun c => c.metadata.parent_id) = [] := by
  refine ⟨rfl, rfl, ?_⟩
  decide

/-- C1 (amended): after a sync run of `main` (with its sha256-hex promo ids:
pairwise distinct and `'#'`-free), the set of `parent_id` values stored in
the collection equals exactly the set of promo ids of the scraped records
whose description is nonempty after stripping; records with an
empty/whitespace description contribute no chunk at all, so their ids are
missing from the store.  No chunk with a non-scraped parent remains (the
collection is dropped and rebuilt, `DROP_OLD_COLLECTION = True`). -/
theorem C1_sync_parent_ids_amended {E : Type} (embed : ChunkMeta → List Char → E)
    (store₀ : Store E) (data : List PromoItem)
    (hfree : ∀ it ∈ data, ('#' : Char) ∉ it.id)
    (hnodup : (data.map fun it => it.id).Nodup) (pid : List Char) :
    pid ∈ (syncRun embed store₀ data).map (fun c => c.metadata.parent_id) ↔
      ∃ it ∈ data, it.id = pid ∧ pyStrip it.description ≠ [] := by
  rw [syncRun_eq_flat embed store₀ data hfree hnodup]
  constructor
  · intro h
    rcases List.mem_map.mp h with ⟨c, hc, hpid⟩
    rcases List.mem_flatMap.mp hc with ⟨it, hit, hcit⟩
    refine ⟨it, hit, ?_, ?_⟩
    · rw [← hpid, (promoChunkRecords_shape embed it c hcit).1]
    · intro hnil
      have hempty : promoChunkRecords embed it = [] :=
        (promoChunkRecords_eq_nil_iff _ _).mpr
          ((chunkTextDefault_eq_nil_iff _).mpr hnil)
      rw [hempty] at hcit
      exact absurd hcit (List.not_mem_nil c)
  · rintro ⟨it, hit, hid, hdesc⟩
    have hne : promoChunkRecords embed it ≠ [] := by
      rw [Ne, promoChunkRecords_eq_nil_iff, chunkTextDefault_eq_nil_iff]
      exact hdesc
    obtain ⟨c, hc⟩ := List.exists_mem_of_ne_nil _ hne
    exact List.mem_map.mpr ⟨c, List.mem_flatMap.mpr ⟨it, hit, hc⟩,
      by rw [(promoChunkRecords_shape embed it c hc).1, hid]⟩

/-- C1 (witness): the amended theorem at a concrete two-promo scrape. -/
theorem C1_witness :
    "b2".data ∈ (syncRun (fun _ _ => (0 : Nat)) [] [promoEmptyDesc, promoWithDesc]).map
        (fun c => c.metadata.parent_id) ↔
      ∃ it ∈ [promoEmptyDesc, promoWithDesc], it.id = "b2".data ∧
        pyStrip it.description ≠ [] :=
  C1_sync_parent_ids_amended (fun _ _ => (0 : Nat)) [] [promoEmptyDesc, promoWithDesc]
    (by decide) (by decide) ("b2".data)

/-- C8 (confirmed): because `DROP_OLD_COLLECTION = True` makes `main` drop
and rebuild the collection, the store after a sync run is a function of the
scrape data alone (given the deterministic embedding provider), so running
the sync twice with the same scrape input leaves the store — chunk ids,
texts, metadata and embeddings — exactly as after the first run. -/
theorem C8_sync_idempotence {E : Type} (embed : ChunkMeta → List Char → E)
    (store₀ : Store E) (data : List PromoItem) :
    syncRun embed (syncRun embed store₀ data) data = syncRun embed store₀ data := rfl

/-- C2 (counterexample): for `smart_chunks` with `max_chars = 5`,
`overlap = 0`, `min_chars = 3` on the 7-character text `"abcdefg"`, the
final slice `"fg"` is shorter than `min_chars` and is discarded — the
returned sequence is `["abcde"]`, so the trailing content is lost, contrary
to the claim that the final slice is always kept. -/
theorem C2_counterexample :
    5 < ("abcdefg".data).length ∧
    smartChunks 5 0 3 ("abcdefg".data) = ["abcde".data] := by
  refine ⟨by decide, ?_⟩
  decide

/-- C2 (amended): for text longer than `max_chars`, every slice —
including the final one — is kept only when its stripped length is at
least `min_chars`; a short final slice is discarded like any other short
slice.  The only safeguard is the degenerate fallback: when no slice at
all reaches `min_chars`, the whole cleaned text is returned as one chunk. -/
theorem C2_short_slices_amended (maxChars overlap minChars : Nat) (s : List Char)
    (h : maxChars < (cleanText s).length) :
    smartChunks maxChars overlap minChars s = [cleanText s] ∨
      ∀ c ∈ smartChunks maxChars overlap minChars s, minChars ≤ c.length := by
  unfold smartChunks smartChunksF
  have ht : ¬cleanText s = [] := by
    intro hnil
    rw [hnil] at h
    simp at h
  have hle : ¬(cleanText s).length ≤ maxChars := by omega
  simp only [ht, hle, if_false]
  have hsome := smartGo_isSome maxChars overlap minChars (cleanText s)
    ((cleanText s).length + 1) 0 [] (by omega)
  obtain ⟨cs, hcs⟩ := Option.isSome_iff_exists.mp hsome
  rw [hcs]
  by_cases hnil : cs = []
  · left
    simp [hnil]
  · right
    intro c hc
    simp only [hnil, if_false, Option.map_some', Option.getD_some] at hc
    exact smartGo_min_length maxChars overlap minChars (cleanText s) _ 0 [] cs hcs
      (by simp) c hc

/-- C2 (witness): the amended theorem at the counterexample's input, where
the surviving chunk indeed meets the minimum length. -/
theorem C2_witness :
    5 < (cleanText ("abcdefg".data)).length ∧
    (smartChunks 5 0 3 ("abcdefg".data) = [cleanText ("abcdefg".data)] ∨
      ∀ c ∈ smartChunks 5 0 3 ("abcdefg".data), 3 ≤ c.length) :=
  ⟨by decide, C2_short_slices_amended 5 0 3 ("abcdefg".data) (by decide)⟩

lemma chunkGo_stuck : ∀ (fuel : Nat) (acc : List (List Char)),
    chunkGo 1 1 ("ab".data) fuel 0 acc = none := by
  intro fuel
  induction fuel with
  | zero => intro acc; rfl
  | succ f ih =>
    intro acc
    rw [chunkGo_succ]
    have h1 : (0 : Nat) < ("ab".data).length := by decide
    have h2 : min (0 + 1) ("ab".data).length = 1 := by decide
    have h3 : ¬(1 = ("ab".data).length) := by decide
    rw [if_pos h1, h2, if_neg h3]
    exact ih _

/-- C9 (counterexample): `chunk_text` of `3.bca_scraper_senteces.py` has no
progress guard — with `max_chars = 1`, `overlap = 1` on the two-character
text `"ab"` the window start is recomputed as `max 0 (1 - 1) = 0` forever,
so the loop never terminates (no amount of fuel completes it), contrary to
the claim that the chunker terminates for every `max_chars > 0`,
`overlap ≥ 0` including `overlap ≥ max_chars`. -/
theorem C9_counterexample : ChunkTextDiverges 1 1 ("ab".data) := by
  intro fuel
  unfold chunkTextF
  have hs : pyStrip ("ab".data) = "ab".data := by decide
  rw [hs]
  have hne : ¬("ab".data = ([] : List Char)) := by decide
  rw [if_neg hne]
  exact chunkGo_stuck fuel []

/-- C9 (amended): `smart_chunks` (file 6) terminates on every input for
every parameter choice, because its loop advances the window start by
`max (end - overlap) (start + 1)`, never less than one character; but
`chunk_text` (file 3) lacks that guard, and is only guaranteed to
terminate when `overlap < max_chars` (as with its defaults 150 < 1200). -/
theorem C9_termination_amended (maxChars overlap minChars : Nat) (s : List Char) :
    (smartChunksF ((cleanText s).length + 1) maxChars overlap minChars s).isSome = true ∧
    (overlap < maxChars →
      (chunkTextF ((pyStrip s).length + 1) maxChars overlap s).isSome = true) := by
  constructor
  · unfold smartChunksF
    by_cases h : cleanText s = []
    · simp [h]
    · simp only [h, if_false]
      by_cases h2 : (cleanText s).length ≤ maxChars
      · simp [h2]
      · simp only [h2, if_false]
        have hsome := smartGo_isSome maxChars overlap minChars (cleanText s)
          ((cleanText s).length + 1) 0 [] (by omega)
        obtain ⟨r, hr⟩ := Option.isSome_iff_exists.mp hsome
        rw [hr]
        rfl
  · intro ho
    unfold chunkTextF
    by_cases h : pyStrip s = []
    · simp [h]
    · simp only [h, if_false]
      exact chunkGo_isSome maxChars overlap (pyStrip s) ho _ 0 [] (by omega)

/-- C9 (witness): the amended theorem at `max_chars = 3`, `overlap = 1`,
`min_chars = 0` on `"hello"`. -/
theorem C9_witness :
    (smartChunksF ((cleanText ("hello".data)).length + 1) 3 1 0 ("hello".data)).isSome = true ∧
    (chunkTextF ((pyStrip ("hello".data)).length + 1) 3 1 ("hello".data)).isSome = true :=
  ⟨(C9_termination_amended 3 1 0 ("hello".data)).1,
    (C9_termination_amended 3 1 0 ("hello".data)).2 (by decide)⟩

/-- C3 (counterexample): `main`'s per-promo loop has no `try`/`except`, so
an embedding failure on the first promo aborts the whole batch: with two
scraped promos where embedding the first fails, the loop exits with an
empty store and both promos unprocessed — the second promo, although
scraped with a nonempty description, is never stored, contrary to the
claim that the engine continues with the remaining promos. -/
theorem C3_counterexample :
    pyStrip promoWithDesc.description ≠ [] ∧
    syncLoop (fun _ _ => (0 : Nat)) (fun it => it.id == "p1".data) ([] : Store Nat)
        [promoEmptyDesc, promoWithDesc] [] = ([], [promoEmptyDesc, promoWithDesc]) := by
  refine ⟨by decide, ?_⟩
  decide

/-- C3 (amended): chunks of promos processed before the failing one are
exactly those a failure-free sync of that prefix would store (per-promo
isolation holds: a failure cannot corrupt another promo's chunks), but the
engine does not continue — the exception propagates, leaving the failing
promo and every promo after it unprocessed. -/
theorem C3_failure_isolation_amended {E : Type} (embed : ChunkMeta → List Char → E)
    (fail : PromoItem → Bool) (pre : List PromoItem) (bad : PromoItem)
    (post : List PromoItem) (st : Store E)
    (hpre : ∀ it ∈ pre, fail it = false) (hbad : fail bad = true) :
    syncLoop embed fail ([] : Store E) (pre ++ bad :: post) st =
      ((syncLoop embed (fun _ => false) ([] : Store E) pre st).1, bad :: post) := by
  induction pre generalizing st with
  | nil =>
    rw [List.nil_append, syncLoop, syncLoop]
    simp [deleteStep_nil, hbad]
  | cons it rest ih =>
    have hit : fail it = false := hpre it (List.mem_cons_self _ _)
    rw [List.cons_append, syncLoop, syncLoop]
    simp only [deleteStep_nil, hit, Bool.false_eq_true, if_false]
    exact ih _ (fun x hx => hpre x (List.mem_cons_of_mem _ hx))

/-- C3 (witness): the amended theorem at a concrete run failing on the
second of three promos. -/
theorem C3_witness :
    syncLoop (fun _ _ => (0 : Nat)) (fun it => it.id == "p1".data) ([] : Store Nat)
        [promoWithDesc, promoEmptyDesc, promoWithDesc] [] =
      ((syncLoop (fun _ _ => (0 : Nat)) (fun _ => false) ([] : Store Nat)
          [promoWithDesc] []).1, [promoEmptyDesc, promoWithDesc]) :=
  C3_failure_isolation_amended (fun _ _ => (0 : Nat)) (fun it => it.id == "p1".data)
    [promoWithDesc] promoEmptyDesc [promoWithDesc] [] (by decide) (by decide)

/-- C4 (confirmed): `build_documents_from_promo` always yields at least one
document, and whenever chunking the assembled base text produces no chunk
(empty or too-short description), it yields exactly the single synthetic
fallback document whose text is `"Title: …\nURL: …\nPeriod: …"` — carrying
the record's title, URL and period. -/
theorem C4_synthetic_fallback (promo : RawPromo) (fresh : List Char) :
    buildDocumentsFromPromo promo fresh ≠ [] ∧
    (smartChunks MAX_CHARS_PER_CHUNK OVERLAP_CHARS MIN_CHARS_PER_CHUNK
        (baseTextOf promo) = [] →
      buildDocumentsFromPromo promo fresh =
        [(docIdOf (promoIdOf promo fresh) 0,
          "Title: ".data ++ cleanText promo.title ++ "\nURL: ".data ++ promo.url ++
            "\nPeriod: ".data ++ cleanText promo.period,
          docMetaOf promo (promoIdOf promo fresh) 0)]) := by
  have hunfold : buildDocumentsFromPromo promo fresh =
      if docsFromChunks promo (promoIdOf promo fresh) 0
          (smartChunks MAX_CHARS_PER_CHUNK OVERLAP_CHARS MIN_CHARS_PER_CHUNK
            (baseTextOf promo)) = []
      then [(docIdOf (promoIdOf promo fresh) 0,
        "Title: ".data ++ cleanText promo.title ++ "\nURL: ".data ++ promo.url ++
          "\nPeriod: ".data ++ cleanText promo.period,
        docMetaOf promo (promoIdOf promo fresh) 0)]
      else docsFromChunks promo (promoIdOf promo fresh) 0
        (smartChunks MAX_CHARS_PER_CHUNK OVERLAP_CHARS MIN_CHARS_PER_CHUNK
          (baseTextOf promo)) := rfl
  by_cases h : smartChunks MAX_CHARS_PER_CHUNK OVERLAP_CHARS MIN_CHARS_PER_CHUNK
      (baseTextOf promo) = []
  · have h0 : docsFromChunks promo (promoIdOf promo fresh) 0
        (smartChunks MAX_CHARS_PER_CHUNK OVERLAP_CHARS MIN_CHARS_PER_CHUNK
          (baseTextOf promo)) = [] := by
      rw [docsFromChunks_eq_nil_iff]
      exact h
    rw [hunfold, if_pos h0]
    exact ⟨List.cons_ne_nil _ _, fun _ => rfl⟩
  · have hd : docsFromChunks promo (promoIdOf promo fresh) 0
        (smartChunks MAX_CHARS_PER_CHUNK OVERLAP_CHARS MIN_CHARS_PER_CHUNK
          (baseTextOf promo)) ≠ [] := by
      rw [Ne, docsFromChunks_eq_nil_iff]
      exact h
    rw [hunfold, if_neg hd]
    exact ⟨hd, fun hcontra => absurd hcontra h⟩

/-- C4 (witness): the theorem at a concrete promo with an empty description,
whose base text is too short to chunk, so the synthetic fallback results. -/
theorem C4_witness :
    buildDocumentsFromPromo rawPromoEmpty ("u1".data) ≠ [] ∧
    buildDocumentsFromPromo rawPromoEmpty ("u1".data) =
      [(docIdOf (promoIdOf rawPromoEmpty ("u1".data)) 0,
        "Title: ".data ++ cleanText rawPromoEmpty.title ++ "\nURL: ".data ++
          rawPromoEmpty.url ++ "\nPeriod: ".data ++ cleanText rawPromoEmpty.period,
        docMetaOf rawPromoEmpty (promoIdOf rawPromoEmpty ("u1".data)) 0)] :=
  ⟨(C4_synthetic_fallback rawPromoEmpty ("u1".data)).1,
   (C4_synthetic_fallback rawPromoEmpty ("u1".data)).2 (by decide)⟩

/-- C5 (confirmed): for any detected months, raw candidate rows and cutoff,
the collapsed result list contains no two entries with the same
`parent_id`; each returned entry is one of the candidate items, and its
score is maximal among all candidate items of that parent (so its score
and text are the representative of that promo). -/
theorem C5_parent_collapse (months : List (List Char)) (rows : List CandRow) (n : Nat) :
    ((rerankTake n (mkItems months 0 rows)).map fun e => e.parent_id).Nodup ∧
    ∀ e ∈ rerankTake n (mkItems months 0 rows),
      e ∈ mkItems months 0 rows ∧
      ∀ it ∈ mkItems months 0 rows, it.parent_id = e.parent_id → it.score ≤ e.score := by
  obtain ⟨hnodup, hcover, hent⟩ := bestByParent_inv (mkItems months 0 rows)
  have hvpid : (((bestByParent (mkItems months 0 rows)).map fun e => e.2).map
      fun e => e.parent_id) = (bestByParent (mkItems months 0 rows)).map fun e => e.1 := by
    rw [List.map_map]
    exact List.map_congr_left (fun e he => (hent e he).2.1)
  have hvnodup : ((((bestByParent (mkItems months 0 rows)).map fun e => e.2)).map
      fun e => e.parent_id).Nodup := by
    rw [hvpid]
    exact hnodup
  have hperm := List.mergeSort_perm ((bestByParent (mkItems months 0 rows)).map fun e => e.2)
    (fun a b => decide (b.score ≤ a.score))
  have hwnodup : (((((bestByParent (mkItems months 0 rows)).map fun e => e.2).mergeSort
      fun a b => decide (b.score ≤ a.score)).map fun e => e.parent_id)).Nodup :=
    ((hperm.map fun e => e.parent_id).nodup_iff).mpr hvnodup
  constructor
  · unfold rerankTake
    rw [List.map_take]
    exact List.Sublist.nodup (List.take_sublist n _) hwnodup
  · intro e he
    unfold rerankTake at he
    have hew : e ∈ ((bestByParent (mkItems months 0 rows)).map fun e => e.2).mergeSort
        fun a b => decide (b.score ≤ a.score) := (List.take_sublist n _).subset he
    have hev : e ∈ (bestByParent (mkItems months 0 rows)).map fun e => e.2 :=
      hperm.mem_iff.mp hew
    rcases List.mem_map.mp hev with ⟨entry, hentry, heq⟩
    obtain ⟨hm, hpid, hmax⟩ := hent entry hentry
    subst heq
    exact ⟨hm, fun it hitm hp => hmax it hitm (by rw [hp, hpid])⟩

/-- C6 (counterexample): a candidate whose combined period/title/text
contains only a synonym of the adjacent month (`"juli"`, adjacent to the
detected month `08`) and no synonym of the detected month itself receives
no boost at all — `month_boost` returns `0`, not the claimed near-miss
boost, because its near-miss branch also requires a direct synonym match
for the detected month. -/
theorem C6_counterexample :
    ((tableSyns (prevCode (codeNum ("08".data)))).any fun s =>
      containsWord s (candText ("juli".data) [] [])) = true ∧
    monthBoost ("juli".data) [] [] [("08".data)] = 0 := by
  constructor
  · decide
  · decide

/-- C6 (amended): the final score is the similarity plus the sum over the
detected months of per-month boosts, where the near-miss branch adds its
fixed `0.08` (smaller than the direct boost `0.12`) only when a synonym of
the detected month is present *together with* a synonym of the adjacent
month (month ± 1, wrapping December → January and January → December);
an adjacent-month synonym alone earns nothing. -/
theorem C6_month_boost_amended :
    (∀ period title doc months,
      monthBoost period title doc months =
        (months.map fun mm => monthContrib mm (candText period title doc)).sum) ∧
    (∀ months i row, (mkItem months i row).score =
      baseScore row.dist + monthBoost row.meta.period row.meta.title row.doc months) ∧
    (∀ mm text, directHit mm text = false → nearHit mm text = false) ∧
    (0.08 : ℚ) < 0.12 ∧ nextCode 12 = "01".data ∧ prevCode 1 = "12".data := by
  refine ⟨fun p t d m => monthBoost_eq_sum p t d m, fun _ _ _ => rfl,
    fun mm text h => nearHit_false_of_directHit_false mm text h, by norm_num, ?_, ?_⟩
  · decide
  · decide

/-- C6 (witness): the amended theorem applied at the counterexample's
candidate — no direct match for `08`, hence no near-miss boost. -/
theorem C6_witness :
    nearHit ("08".data) (candText ("juli".data) [] []) = false :=
  C6_month_boost_amended.2.2.1 ("08".data) (candText ("juli".data) [] []) (by decide)

/-- C7 (confirmed): for a query whose detected month list is exactly
`[mm]`, of two candidate chunks identical in document text, title and
retrieval distance, the one whose combined period/title/text contains a
synonym of `mm` (direct hit) scores strictly higher than the one that
contains none: its boost is at least `0.12` while the other's is at most
`0.05`. -/
theorem C7_month_boost_monotonicity (q mm : List Char)
    (pidA idA pidB idB periodA periodB title doc : List Char) (dist : ℚ) (i j : Nat)
    (hq : detectMonths q = [mm])
    (hA : directHit mm (candText periodA title doc) = true)
    (hB : directHit mm (candText periodB title doc) = false) :
    (mkItem (detectMonths q) j ⟨doc, ⟨pidB, idB, title, periodB⟩, dist⟩).score <
      (mkItem (detectMonths q) i ⟨doc, ⟨pidA, idA, title, periodA⟩, dist⟩).score := by
  unfold mkItem
  simp only [hq]
  rw [monthBoost_eq_sum, monthBoost_eq_sum]
  simp only [List.map_cons, List.map_nil, List.sum_cons, List.sum_nil, add_zero]
  have h1 := monthContrib_ge_of_directHit mm (candText periodA title doc) hA
  have h2 := monthContrib_le_of_not_directHit mm (candText periodB title doc) hB
  have h3 : (0.05 : ℚ) < 0.12 := by norm_num
  linarith

/-- C7 (witness): query `"promo bulan agustus"` detects exactly `["08"]`;
a candidate whose period is `"agustus"` beats the otherwise-identical
candidate whose period is `"januari"`. -/
theorem C7_witness :
    (mkItem (detectMonths ("promo bulan agustus".data)) 1
      ⟨[], ⟨"p2".data, [], [], "januari".data⟩, 0⟩).score <
    (mkItem (detectMonths ("promo bulan agustus".data)) 0
      ⟨[], ⟨"p1".data, [], [], "agustus".data⟩, 0⟩).score :=
  C7_month_boost_monotonicity ("promo bulan agustus".data) ("08".data)
    ("p1".data) [] ("p2".data) [] ("agustus".data) ("januari".data) [] [] 0 0 1
    (by decide) (by decide) (by decide)

/-- C10 (confirmed, implicit): when month detection finds no month in the
query, `month_boost` is `0` for every candidate, so each item's final
score equals its raw similarity `1 − distance` and coincides with the
`base_similarity` it reports. -/
theorem C10_no_month_pure_similarity (q : List Char) (hq : detectMonths q = []) :
    (∀ period title doc, monthBoost period title doc (detectMonths q) = 0) ∧
    (∀ i row, (mkItem (detectMonths q) i row).score = baseScore row.dist ∧
      (mkItem (detectMonths q) i row).score =
        (mkItem (detectMonths q) i row).base_similarity) := by
  rw [hq]
  constructor
  · intro p t d
    rfl
  · intro i row
    constructor
    · show baseScore row.dist + monthBoost row.meta.period row.meta.title row.doc [] =
        baseScore row.dist
      show baseScore row.dist + 0 = baseScore row.dist
      rw [add_zero]
    · show baseScore row.dist + monthBoost row.meta.period row.meta.title row.doc [] =
        baseScore row.dist
      show baseScore row.dist + 0 = baseScore row.dist
      rw [add_zero]

/-- C10 (witness): the theorem at the query `"Ada promo restaurant ga ?"`,
which contains no month reference, and a concrete candidate row. -/
theorem C10_witness :
    monthBoost ("05-17 Agu 2025".data) ("Promo Resto".data) ("Diskon restoran".data)
      (detectMonths ("Ada promo restaurant ga ?".data)) = 0 ∧
    (mkItem (detectMonths ("Ada promo restaurant ga ?".data)) 0 exampleRow).score =
      baseScore exampleRow.dist :=
  ⟨(C10_no_month_pure_similarity ("Ada promo restaurant ga ?".data) (by decide)).1 _ _ _,
   ((C10_no_month_pure_similarity ("Ada promo restaurant ga ?".data) (by decide)).2
     0 exampleRow).1⟩
